import Mathlib

/-!
Shallow embedding of the base16.sh scheme server's index-building and
variable-derivation engine (`src/main.rs`), together with theorems settling
the specification's claims about it.

Modelling conventions:

* Rust `String` / `&str` values are Lean `String`s.  Where the source works
  with UTF-8 byte offsets and byte lengths, these are computed from the
  characters' UTF-8 encoded sizes.
* Rust machine integers are modelled as `Nat` / `Int`.  Colour arithmetic that
  the source performs in `f64` is modelled exactly; every `f64` operation
  involved is exact on the integer inputs concerned except the final `sqrt`
  of the colour distance and the divisions by `255`, which are treated by the
  monotonicity arguments documented at the relevant definitions.
* A Rust panic (string slice at a non-character-boundary byte offset) is
  modelled by `Option.none` in the variable deriver, where a claim is about
  exactly that behaviour.
-/

namespace Base16

/-- UTF-8 encoded size of a character, as in Rust `char::len_utf8`. -/
def charSize (c : Char) : Nat :=
  if c.toNat < 0x80 then 1 else if c.toNat < 0x800 then 2
  else if c.toNat < 0x10000 then 3 else 4

/-- UTF-8 byte length of a string, as in Rust `str::len`. -/
def utf8Len (s : String) : Nat := (s.data.map charSize).sum

/-- UTF-8 encoding of a single character. -/
def charBytes (c : Char) : List Nat :=
  let n := c.toNat
  if n < 0x80 then [n]
  else if n < 0x800 then [0xC0 + n / 0x40, 0x80 + n % 0x40]
  else if n < 0x10000 then [0xE0 + n / 0x1000, 0x80 + n / 0x40 % 0x40, 0x80 + n % 0x40]
  else [0xF0 + n / 0x40000, 0x80 + n / 0x1000 % 0x40, 0x80 + n / 0x40 % 0x40, 0x80 + n % 0x40]

/-- UTF-8 bytes of a string, as Rust sees `str` content. -/
def utf8Bytes (s : String) : List Nat := s.data.flatMap charBytes

/-- Drop `n` UTF-8 bytes from the front of a character list.  `none` when `n`
lands strictly inside a character's encoding or past the end:  a Rust string
slice starting there panics. -/
def dropBytes : List Char → Nat → Option (List Char)
  | cs, 0 => some cs
  | [], _ + 1 => none
  | c :: cs, n + 1 =>
    if charSize c ≤ n + 1 then dropBytes cs (n + 1 - charSize c) else none

/-- Take the first `n` UTF-8 bytes of a character list; `none` when `n` is not
a character boundary. -/
def takeBytes : List Char → Nat → Option (List Char)
  | _, 0 => some []
  | [], _ + 1 => none
  | c :: cs, n + 1 =>
    if charSize c ≤ n + 1 then (takeBytes cs (n + 1 - charSize c)).map (c :: ·) else none

/-- Rust string slice `s[a..b]` with byte offsets `a ≤ b`:  `none` models the
panic raised when an offset is not a character boundary (or exceeds the
length). -/
def strSlice (s : String) (a b : Nat) : Option String := do
  let t ← dropBytes s.data a
  let u ← takeBytes t (b - a)
  pure (String.mk u)

/-- Rust `value.trim_start_matches('#')`:  removes every leading `'#'`. -/
def stripHash (s : String) : String := String.mk (s.data.dropWhile (fun c => c == '#'))

/-- Rust `char::is_ascii_alphanumeric`. -/
def isAsciiAlphanumeric (c : Char) : Bool :=
  ('0' ≤ c && c ≤ '9') || ('A' ≤ c && c ≤ 'Z') || ('a' ≤ c && c ≤ 'z')

/-- `sanitize_name` from the source:  keep only ASCII alphanumerics, `'-'`
and `'_'`, truncating to the first 255 such characters. -/
def sanitizeName (s : String) : String :=
  String.mk ((s.data.filter (fun c => isAsciiAlphanumeric c || c == '-' || c == '_')).take 255)

/-- Rust `str::to_lowercase`, modelled by per-character ASCII lowercasing
(the two agree exactly on ASCII strings, the only queries the program passes
to `find_fuzzy` — every call site sanitizes first — and the statement about
fuzzy resolution carries this ASCII restriction as a hypothesis; Rust's
full Unicode lowercasing would differ on non-ASCII characters). -/
def rustToLower (s : String) : String := String.mk (s.data.map Char.toLower)

/-- `slugify` from the source:  lowercase, then replace every space with a
hyphen. -/
def slugify (s : String) : String :=
  String.mk ((s.data.map Char.toLower).map (fun c => if c == ' ' then '-' else c))

/-- Rust `char::to_digit(16)`. -/
def hexDigitVal (c : Char) : Option Nat :=
  if 48 ≤ c.toNat && c.toNat ≤ 57 then some (c.toNat - 48)
  else if 97 ≤ c.toNat && c.toNat ≤ 102 then some (c.toNat - 87)
  else if 65 ≤ c.toNat && c.toNat ≤ 70 then some (c.toNat - 55)
  else none

/-- Digit-accumulation loop of `u8::from_str_radix(_, 16)`:  fails on a
non-digit character and on overflow past 255 (Rust's checked arithmetic). -/
def parseHexDigits : List Char → Nat → Option Nat
  | [], acc => some acc
  | c :: cs, acc =>
    match hexDigitVal c with
    | some d => if acc * 16 + d < 256 then parseHexDigits cs (acc * 16 + d) else none
    | none => none

/-- Rust `u8::from_str_radix(s, 16)`:  an optional sign followed by at least
one hex digit; a `'-'` sign succeeds only for value zero (anything else
underflows `u8`). -/
def u8FromStrRadix16 (s : String) : Option Nat :=
  match s.data with
  | [] => none
  | c :: rest =>
    if c == '+' then (if rest.isEmpty then none else parseHexDigits rest 0)
    else if c == '-' then
      (if rest.isEmpty then none
       else match parseHexDigits rest 0 with
            | some 0 => some 0
            | _ => none)
    else parseHexDigits (c :: rest) 0

/-- Zero-pad a natural number to six decimal digits. -/
def pad6 (n : Nat) : String :=
  let s := toString n
  String.mk (List.replicate (6 - s.length) '0') ++ s

/-- Models Rust `format!("{:.6}", r as f64 / 255.0)` for `r ≤ 255`:  round
`r / 255` to the nearest multiple of `10 ^ (-6)` and print it with exactly six
decimal digits.  For `0 ≤ r ≤ 255` the quantity `r * 10^6 / 255` is never
exactly half-way between two integers (it is at least `1 / 102` away from any
half-integer), while the `f64` value of `r / 255` differs from the exact
rational by less than `2 ^ (-52)`; hence the decimal Rust prints coincides
with this exact rounding. -/
def fmt6 (r : Nat) : String :=
  let q := (2000000 * r + 255) / 510
  toString (q / 1000000) ++ "." ++ pad6 (q % 1000000)


/-! ### Variable deriver (`handle_scheme_template`, src/main.rs lines 808-863) -/

/-- Values stored in the mustache variable bag (`insert_str` / `insert_bool`). -/
inductive VarValue
  | str (s : String)
  | bool (b : Bool)
deriving DecidableEq, Repr

/-- Variables derived for one palette slot by the loop body of
`handle_scheme_template` (src/main.rs lines 827-862), in insertion order.
`none` models the panic of the Rust byte-offset slices `&hex_value[0..2]`,
`[2..4]`, `[4..6]` when offset 2 or 4 falls inside a multi-byte character. -/
def deriveSlotVars (key value : String) : Option (List (String × String)) :=
  let hexValue := stripHash value
  let base := [(key ++ "-hex", hexValue)]
  if utf8Len hexValue = 6 then
    match strSlice hexValue 0 2, strSlice hexValue 2 4, strSlice hexValue 4 6 with
    | some hexR, some hexG, some hexB =>
      let withHex := base ++
        [(key ++ "-hex-r", hexR), (key ++ "-hex-g", hexG), (key ++ "-hex-b", hexB),
         (key ++ "-hex-bgr", hexB ++ hexG ++ hexR)]
      match u8FromStrRadix16 hexR, u8FromStrRadix16 hexG, u8FromStrRadix16 hexB with
      | some r, some g, some b =>
        some (withHex ++
          [(key ++ "-rgb-r", toString r), (key ++ "-rgb-g", toString g),
           (key ++ "-rgb-b", toString b),
           (key ++ "-rgb16-r", toString (r * 257)), (key ++ "-rgb16-g", toString (g * 257)),
           (key ++ "-rgb16-b", toString (b * 257)),
           (key ++ "-dec-r", fmt6 r), (key ++ "-dec-g", fmt6 g), (key ++ "-dec-b", fmt6 b)])
      | _, _, _ => some withHex
    | _, _, _ => none
  else some base

/-- All palette-slot insertions of `handle_scheme_template`, concatenated in
palette iteration order; `none` as soon as any slot panics. -/
def derivePalette : List (String × String) → Option (List (String × String))
  | [] => some []
  | (k, v) :: rest =>
    match deriveSlotVars k v, derivePalette rest with
    | some l, some ls => some (l ++ ls)
    | _, _ => none

/-- The full variable bag built by `handle_scheme_template` before rendering:
scalar variables, variant variables, then one block per palette slot.  The
palette is an association list whose order models the (arbitrary) iteration
order of the Rust `HashMap`. -/
def deriveVars (name author system variant : String)
    (palette : List (String × String)) : Option (List (String × VarValue)) :=
  let slug := slugify name
  let scalars : List (String × VarValue) :=
    [("scheme-name", .str name), ("scheme-author", .str author),
     ("scheme-slug", .str slug),
     ("scheme-slug-underscored",
        .str (String.mk (slug.data.map (fun c => if c == '-' then '_' else c)))),
     ("scheme-system", .str system)]
  let scalars := scalars ++
    (if variant.isEmpty then []
     else ("scheme-variant", .str variant) ::
       (if variant == "dark" then [("scheme-is-dark-variant", .bool true)]
        else if variant == "light" then [("scheme-is-light-variant", .bool true)]
        else []))
  match derivePalette palette with
  | some pvars => some (scalars ++ pvars.map (fun p => (p.1, .str p.2)))
  | none => none

/-- Lookup in an insertion sequence with `HashMap::insert` semantics: the last
insertion for a key wins; `none` when the key was never inserted. -/
def lastLookup {α : Type} (l : List (String × α)) (k : String) : Option α :=
  (l.filter (fun p => p.1 == k)).getLast?.map Prod.snd

/-! ### Exact binary64 arithmetic

The source computes the saturation test of `is_grey_scheme` and the
Jaro-Winkler scores in `f64`.  Every `f64` value arising there is a dyadic
rational `m * 2^e` well inside the normal range, so those computations can
be modelled exactly: `Dy` carries an unbounded mantissa and exponent,
addition, subtraction and multiplication of dyadics are exact, and the
round-to-nearest-even rounding step of each IEEE 754 operation is applied
explicitly (`dyRound` on every exact sum, difference and product, and
`dyDivRound` for a correctly rounded division).  No overflow, underflow,
infinity or NaN can occur for the inputs concerned, so these pipelines
return bit-for-bit the doubles the source computes. -/

/-- `⌊log₂ n⌋` (0 for `n = 0`), by fuel-indexed structural recursion. -/
def natLog2Aux : Nat → Nat → Nat
  | 0, _ => 0
  | fuel + 1, n => if 2 ≤ n then natLog2Aux fuel (n / 2) + 1 else 0

/-- `⌊log₂ n⌋`; the fuel `n` dominates the number of halvings. -/
def natLog2 (n : Nat) : Nat := natLog2Aux n n

/-- A dyadic rational `m * 2^e`: the exact value of an `f64`, or of an exact
intermediate result about to be rounded.  Representations are not canonical
(`⟨1, 0⟩` and `⟨2, -1⟩` denote the same value); every comparison below is a
comparison of values. -/
structure Dy where
  m : Int
  e : Int
deriving DecidableEq, Repr

/-- The dyadic value of a natural number (Rust `as f64` is exact for every
count, length and channel value that occurs, all far below `2^53`). -/
def dyOfNat (n : Nat) : Dy := ⟨n, 0⟩

/-- Exact dyadic sum (the mantissas are aligned to the smaller exponent). -/
def dyAdd (x y : Dy) : Dy :=
  if x.e ≤ y.e then ⟨x.m + y.m * 2 ^ (y.e - x.e).toNat, x.e⟩
  else ⟨y.m + x.m * 2 ^ (x.e - y.e).toNat, y.e⟩

/-- Exact dyadic difference. -/
def dySub (x y : Dy) : Dy := dyAdd x ⟨-y.m, y.e⟩

/-- Exact dyadic product. -/
def dyMul (x y : Dy) : Dy := ⟨x.m * y.m, x.e + y.e⟩

/-- Value comparison `x < y`. -/
def dyLt (x y : Dy) : Bool :=
  if x.e ≤ y.e then x.m < y.m * 2 ^ (y.e - x.e).toNat
  else x.m * 2 ^ (x.e - y.e).toNat < y.m

/-- Rust `f64::max` on the values that occur (no NaN): the larger value. -/
def dyMax (x y : Dy) : Dy := if dyLt x y then y else x

/-- Rust `f64::min` on the values that occur (no NaN): the smaller value. -/
def dyMin (x y : Dy) : Dy := if dyLt y x then y else x

/-- IEEE 754 binary64 round-to-nearest-even of an exact dyadic value: a
mantissa wider than 53 bits is cut down to 53 bits, the cut-off remainder
deciding the direction, ties going to the even candidate.  (All values
rounded in these pipelines lie deep inside the normal range, so neither
overflow nor subnormal rounding arises.) -/
def dyRound (x : Dy) : Dy :=
  let n := x.m.natAbs
  let b := natLog2 n
  if b ≤ 52 then x
  else
    let s := b - 52
    let q := n / 2 ^ s
    let r := n % 2 ^ s
    let q2 :=
      if 2 ^ s < 2 * r then q + 1
      else if 2 * r < 2 ^ s then q
      else if q % 2 = 0 then q else q + 1
    ⟨if x.m < 0 then -(q2 : Int) else (q2 : Int), x.e + s⟩

/-- Correctly rounded binary64 division `fl(x / y)` (`y` nonzero): the exact
quotient is scaled so that its integer part `q` has 54 or 55 bits, then cut
to a 53-bit mantissa in a single rounding step, the division remainder
supplying the below-the-cut (sticky) information, ties to even. -/
def dyDivRound (x y : Dy) : Dy :=
  if x.m = 0 then ⟨0, 0⟩
  else
    let nx := x.m.natAbs
    let ny := y.m.natAbs
    let s : Int := 54 + (natLog2 ny : Int) - (natLog2 nx : Int)
    let N := nx * 2 ^ s.toNat
    let D := ny * 2 ^ (-s).toNat
    let q := N / D
    let r := N % D
    let b := natLog2 q
    let sh := b - 52
    let q2 := q / 2 ^ sh
    let low := q % 2 ^ sh
    let m2 :=
      if 2 ^ sh * D < 2 * (low * D + r) then q2 + 1
      else if 2 * (low * D + r) < 2 ^ sh * D then q2
      else if q2 % 2 = 0 then q2 else q2 + 1
    ⟨if (x.m < 0) = (y.m < 0) then (m2 : Int) else -(m2 : Int), x.e - y.e - s + sh⟩

/-- The exact rational value of a dyadic. -/
def dyToRat (x : Dy) : ℚ :=
  if 0 ≤ x.e then mkRat (x.m * 2 ^ x.e.toNat) 1 else mkRat x.m (2 ^ (-x.e).toNat)

/-- The binary64 value of the Rust literal `0.2`:
`3602879701896397 * 2⁻⁵⁴`, slightly above `1/5`. -/
def fifth64 : Dy := ⟨3602879701896397, -54⟩

/-- The binary64 value computed by `1.0 / 3.0` in the source:
`6004799503160661 * 2⁻⁵⁴`. -/
def third64 : Dy := ⟨6004799503160661, -54⟩

/-- The binary64 value of the Rust literal `0.1`:
`3602879701896397 * 2⁻⁵⁵`, slightly above `1/10`. -/
def tenth64 : Dy := ⟨3602879701896397, -55⟩

/-! ### Jaro-Winkler similarity (the `strsim` crate), in exact binary64 -/

/-- State of the matching loop of `strsim::generic_jaro`. -/
structure JaroState where
  consumed : List Bool
  matchCount : Nat
  transpositions : Nat
  bMatchIndex : Nat
deriving Repr

/-- Inner loop of `strsim::generic_jaro`: the first position `j` of `b` inside
the search window holding an unconsumed character equal to `ae`. -/
def jaroFindMatch (b : List Char) (consumed : List Bool) (ae : Char)
    (minB maxB : Nat) : Option Nat :=
  (b.enum.find? (fun je =>
    decide (minB ≤ je.1) && decide (je.1 ≤ maxB) && (je.2 == ae)
      && !(consumed.getD je.1 true))).map Prod.fst

/-- One step (one character of `a`) of `strsim::generic_jaro`. -/
def jaroStep (b : List Char) (searchRange : Nat) (st : JaroState)
    (i : Nat) (ae : Char) : JaroState :=
  let minB := if i > searchRange then i - searchRange else 0
  let maxB := min (b.length - 1) (i + searchRange)
  if minB > maxB then st
  else
    match jaroFindMatch b st.consumed ae minB maxB with
    | some j =>
      { consumed := st.consumed.set j true
        matchCount := st.matchCount + 1
        transpositions :=
          if j < st.bMatchIndex then st.transpositions + 1 else st.transpositions
        bMatchIndex := j }
    | none => st

/-- `strsim::generic_jaro` over characters.  The final similarity is the
source's `f64` expression
`(1.0 / 3.0) * ((m / a_len) + (m / b_len) + ((m - t) / m))`, evaluated
left-to-right: each division is correctly rounded, the two additions and the
product each round once, and the integer operands (match count,
transposition count, lengths — all far below `2^53` for any input the
program can hold) convert to `f64` exactly. -/
def genericJaro (a b : List Char) : Dy :=
  if a.length = 0 ∧ b.length = 0 then ⟨1, 0⟩
  else if a.length = 0 ∨ b.length = 0 then ⟨0, 0⟩
  else if a.length = 1 ∧ b.length = 1 then (if a == b then ⟨1, 0⟩ else ⟨0, 0⟩)
  else
    let searchRange := max a.length b.length / 2 - 1
    let st := a.enum.foldl (fun (st : JaroState) ie => jaroStep b searchRange st ie.1 ie.2)
      ⟨List.replicate b.length false, 0, 0, 0⟩
    if st.matchCount = 0 then ⟨0, 0⟩
    else
      dyRound (dyMul third64
        (dyRound (dyAdd
          (dyRound (dyAdd (dyDivRound (dyOfNat st.matchCount) (dyOfNat a.length))
            (dyDivRound (dyOfNat st.matchCount) (dyOfNat b.length))))
          (dyDivRound (dyOfNat (st.matchCount - st.transpositions))
            (dyOfNat st.matchCount)))))

/-- `strsim::jaro_winkler`: the Jaro similarity boosted by the (unbounded)
common prefix length, `jaro + (0.1 * prefix_length as f64 * (1.0 - jaro))`
evaluated left-to-right with one binary64 rounding per operation, then
clamped by `.min(1.0)`.  The exact rational value of the resulting double is
returned, so that threshold comparisons can be stated over `ℚ`. -/
def jaroWinkler (a b : String) : ℚ :=
  let sim := genericJaro a.data b.data
  let commonLen := ((a.data.zip b.data).takeWhile (fun p => p.1 == p.2)).length
  dyToRat (dyMin
    (dyRound (dyAdd sim
      (dyRound (dyMul (dyRound (dyMul tenth64 (dyOfNat commonLen)))
        (dyRound (dySub ⟨1, 0⟩ sim))))))
    ⟨1, 0⟩)

/-! ### Scheme index: fuzzy resolution and neighbours -/

/-- `SchemeInfo` record from the source. -/
structure SchemeInfo where
  name : String
  path : String
  system : String
deriving DecidableEq, Repr

/-- The scheme catalog.  The `schemes` `HashMap` is modelled as an association
list (keys unique, first binding wins on lookup). -/
structure SchemeIndex where
  schemes : List (String × SchemeInfo)
  namesSorted : List String
  colorSorted : List String
deriving DecidableEq, Repr

/-- Fold kernel shared by the models of Rust `Iterator::min_by` and
`Iterator::max_by`: `better x acc` decides whether `x` replaces the current
candidate `acc`. -/
def pickAux {α : Type} (better : α → α → Bool) : α → List α → α
  | a, [] => a
  | a, x :: xs => pickAux better (if better x a then x else a) xs

/-- Selection over a whole list; `none` on the empty list. -/
def pickBy {α : Type} (better : α → α → Bool) : List α → Option α
  | [] => none
  | x :: xs => some (pickAux better x xs)

/-- Rust `Iterator::min_by` with key `f`: the first minimising element. -/
def minByFirst {α β : Type} [LinearOrder β] (f : α → β) (l : List α) : Option α :=
  pickBy (fun x a => decide (f x < f a)) l

/-- Rust `Iterator::max_by` with key `f`: the last maximising element. -/
def maxByLast {α β : Type} [LinearOrder β] (f : α → β) (l : List α) : Option α :=
  pickBy (fun x a => decide (f a ≤ f x)) l

/-- `SchemeIndex::find_fuzzy` (src/main.rs lines 195-203): lowercase the
query, score every catalog name with Jaro-Winkler, keep the scores reaching
the threshold, and return the record registered under the best-scoring name
(`max_by` keeps the last maximum on exact ties). -/
def SchemeIndex.findFuzzy (idx : SchemeIndex) (query : String) (threshold : ℚ) :
    Option SchemeInfo :=
  let queryLower := rustToLower query
  (maxByLast Prod.snd
      ((idx.namesSorted.map (fun name => (name, jaroWinkler queryLower name))).filter
        (fun p => decide (threshold ≤ p.2)))).bind
    (fun p => idx.schemes.lookup p.1)

/-- Rust `Iterator::position`: index of the first element satisfying `p`. -/
def position {α : Type} (p : α → Bool) : List α → Option Nat
  | [] => none
  | x :: xs => if p x then some 0 else (position p xs).map (· + 1)

/-- `SchemeIndex::get_neighbors` (src/main.rs lines 181-189): locate the name
in the chosen ordering and return the neighbouring entries, `none` at a list
boundary or when the name is absent. -/
def SchemeIndex.getNeighbors (idx : SchemeIndex) (name : String) (byColor : Bool) :
    Option String × Option String :=
  let list := if byColor then idx.colorSorted else idx.namesSorted
  match position (fun n => n == name) list with
  | none => (none, none)
  | some i => ((match i with | 0 => none | j + 1 => list[j]?), list[i + 1]?)


/-! ### Colour order (`SchemeIndex::compute_color_order`, src/main.rs lines 87-179) -/

/-- A scheme palette: the `palette` mapping of a parsed scheme file, modelled
as an association list with unique keys (iteration order arbitrary). -/
abbrev Palette := List (String × String)

/-- Hex value of one ASCII byte, as `u8::from_str_radix` sees it. -/
def byteHexVal (b : Nat) : Option Nat :=
  if 48 ≤ b && b ≤ 57 then some (b - 48)
  else if 97 ≤ b && b ≤ 102 then some (b - 87)
  else if 65 ≤ b && b ≤ 70 then some (b - 55)
  else none

/-- Digit accumulation of `u8::from_str_radix(_, 16)` over raw bytes. -/
def parseHexDigitBytes : List Nat → Nat → Option Nat
  | [], acc => some acc
  | b :: bs, acc =>
    match byteHexVal b with
    | some d => if acc * 16 + d < 256 then parseHexDigitBytes bs (acc * 16 + d) else none
    | none => none

/-- `u8::from_str_radix(s, 16)` on a raw byte slice (43 and 45 are the ASCII
signs).  Inside `compute_color_order` the source slices `&hex[0..2]` etc. as
`&str`, which panics when a slice offset falls inside a multi-byte character;
this model lets the parse fail on the raw continuation bytes instead — the
two agree on every input on which the source does not abort. -/
def u8FromBytes16 (bs : List Nat) : Option Nat :=
  match bs with
  | [] => none
  | b :: rest =>
    if b == 43 then (if rest.isEmpty then none else parseHexDigitBytes rest 0)
    else if b == 45 then
      (if rest.isEmpty then none
       else match parseHexDigitBytes rest 0 with
            | some 0 => some 0
            | _ => none)
    else parseHexDigitBytes (b :: rest) 0

/-- One colour channel: two bytes at `off`, parsed with `unwrap_or(0)`. -/
def channel (bs : List Nat) (off : Nat) : Nat :=
  (u8FromBytes16 ((bs.drop off).take 2)).getD 0

/-- The 16 fixed colour slots concatenated into the 48-dimensional vector. -/
def colorKeys : List String :=
  ["base00", "base01", "base02", "base03", "base04", "base05", "base06", "base07",
   "base08", "base09", "base0A", "base0B", "base0C", "base0D", "base0E", "base0F"]

/-- `scheme_to_vector`: concatenated RGB triples of the 16 slots; a missing
slot reads `"#000000"`, a stripped value shorter than 6 bytes contributes
`[0, 0, 0]`. -/
def schemeToVector (palette : Palette) : List ℤ :=
  colorKeys.flatMap (fun key =>
    let bs := utf8Bytes (stripHash ((palette.lookup key).getD "#000000"))
    if 6 ≤ bs.length then [(channel bs 0 : ℤ), channel bs 2, channel bs 4]
    else [0, 0, 0])

/-- Squared Euclidean colour distance.  The source computes
`sqrt(sum((x - y)^2))` in `f64`; on these integer coordinates (each at most
255, 48 of them) every intermediate sum is exact, and the correctly rounded
`f64` square root is strictly monotone and injective on the integers that can
occur, so every comparison the source makes between two distances coincides
with the comparison of these exact squares. -/
def distSq (a b : List ℤ) : ℤ := ((a.zip b).map (fun p => (p.1 - p.2) ^ 2)).sum

/-- The `a[0] + a[1] + a[2]` starting key (RGB sum of slot base00). -/
def vec3sum (v : List ℤ) : ℤ := v.getD 0 0 + v.getD 1 0 + v.getD 2 0

/-- The eight accent slots inspected by `is_grey_scheme`. -/
def accentKeys : List String :=
  ["base08", "base09", "base0A", "base0B", "base0C", "base0D", "base0E", "base0F"]

/-- One channel of `is_grey_scheme`, scaled to `[0, 1]`:  the double
`u8::from_str_radix(..).unwrap_or(0) as f64 / 255.0` (the cast is exact, the
division rounds once). -/
def channel01 (bs : List Nat) (off : Nat) : Dy :=
  dyDivRound (dyOfNat (channel bs off)) (dyOfNat 255)

/-- Loop body of `is_grey_scheme` for one accent slot:  the slot must be
present and at least 6 bytes long after stripping `'#'`; the saturation
`(max - min) / max` (literally `0.0` when `max == 0.0`) is computed in exact
binary64 on the channels `r/255, g/255, b/255` and compared against the
double `0.2`.  (A zero double has mantissa 0 in this model, so `mx.m = 0`
is the `max == 0.0` test.)  At the twenty channel pairs whose exact ratio
`(max - min) / max` equals `1/5` — e.g. `max = 255, min = 204`, hex
`ffcccc` — the rounded computation lands just below `0.2` and the slot
counts as grey, while an exact rational reading of the test would say no. -/
def slotIsGrey (palette : Palette) (key : String) : Bool :=
  match palette.lookup key with
  | some hexS =>
    let bs := utf8Bytes (stripHash hexS)
    if 6 ≤ bs.length then
      let r := channel01 bs 0
      let g := channel01 bs 2
      let b := channel01 bs 4
      let mx := dyMax (dyMax r g) b
      let mn := dyMin (dyMin r g) b
      let saturation := if mx.m = 0 then (⟨0, 0⟩ : Dy)
        else dyDivRound (dyRound (dySub mx mn)) mx
      dyLt saturation fifth64
    else false
  | none => false

/-- `is_grey_scheme` (src/main.rs lines 111-131):  at least five of the eight
accent slots qualify; slots missing from the palette are skipped. -/
def isGreyScheme (palette : Palette) : Bool :=
  5 ≤ accentKeys.foldl (fun cnt key => if slotIsGrey palette key then cnt + 1 else cnt) 0

/-- The claim's reading of `is_greyscale`:  every accent slot is consumed,
a slot missing from the palette defaulting to `"#000000"` (saturation 0),
the per-slot saturation test being the same binary64 computation.  Stated
only to exhibit how it diverges from the source's `is_grey_scheme`. -/
def isGreyClaim (palette : Palette) : Bool :=
  5 ≤ accentKeys.foldl (fun cnt key =>
    let bs := utf8Bytes (stripHash ((palette.lookup key).getD "#000000"))
    if 6 ≤ bs.length then
      let r := channel01 bs 0
      let g := channel01 bs 2
      let b := channel01 bs 4
      let mx := dyMax (dyMax r g) b
      let mn := dyMin (dyMin r g) b
      let saturation := if mx.m = 0 then (⟨0, 0⟩ : Dy)
        else dyDivRound (dyRound (dySub mx mn)) mx
      if dyLt saturation fifth64 then cnt + 1 else cnt
    else cnt) 0

/-- Sorting step of `compute_color_order`:  the parsed `(name, palette)`
pairs sorted by name (`sort_by` with `a.cmp(b)`; Rust byte-wise string order
and Lean character-wise order agree, UTF-8 being order-preserving). -/
def sortedSchemes (schemes : List (String × Palette)) : List (String × Palette) :=
  schemes.mergeSort (fun a b => a.1 ≤ b.1)

/-- The greedy nearest-neighbour loop:  `fuel` iterations, each appending the
unvisited index whose vector is closest to the last-visited one (`min_by`
keeps the first minimum; the source's `visited` array always equals
membership in the accumulated order).  When everything is visited an
iteration is a no-op, matching the source's `if let`. -/
def greedyAux (vs : List (List ℤ)) : Nat → List Nat → List Nat
  | 0, order => order
  | fuel + 1, order =>
    let lastI := order.getLastD 0
    match minByFirst (fun i => distSq (vs.getD lastI []) (vs.getD i []))
        ((List.range vs.length).filter (fun i => !(order.contains i))) with
    | some next => greedyAux vs fuel (order ++ [next])
    | none => greedyAux vs fuel order

/-- Starting index:  first index minimising the slot-0 RGB sum (`min_by`
followed by `unwrap_or(0)`, which fires only on the empty list). -/
def startIdx (vs : List (List ℤ)) : Nat :=
  (minByFirst (fun i => vec3sum (vs.getD i [])) (List.range vs.length)).getD 0

/-- Colour vectors of the name-sorted candidates. -/
def schemeVecs (schemes : List (String × Palette)) : List (List ℤ) :=
  (sortedSchemes schemes).map (fun p => schemeToVector p.2)

/-- Traversal order before the grey partition, as indices into the
name-sorted candidate list. -/
def preOrderIdx (schemes : List (String × Palette)) : List Nat :=
  if (sortedSchemes schemes).length = 0 then []
  else greedyAux (schemeVecs schemes) ((sortedSchemes schemes).length - 1)
    [startIdx (schemeVecs schemes)]

/-- Index order after moving grey schemes to the end (`partition` keeps
relative order inside each half). -/
def colorOrderIdx (schemes : List (String × Palette)) : List Nat :=
  let sorted := sortedSchemes schemes
  let parts := (preOrderIdx schemes).partition
    (fun i => !(isGreyScheme (sorted.getD i ("", [])).2))
  parts.1 ++ parts.2

/-- `SchemeIndex::compute_color_order`, modelled from the point where the
scheme files have been read and parsed:  the input is the list of
`(name, palette)` pairs that parsed successfully (the fallible file reads and
YAML parsing are external I/O).  Sort by name, traverse greedily from the
darkest scheme, move grey schemes to the end, return the names. -/
def computeColorOrder (schemes : List (String × Palette)) : List String :=
  (colorOrderIdx schemes).map (fun i => ((sortedSchemes schemes).getD i ("", [])).1)

/-- Value of a two-hex-digit pair, used to state the per-slot formulas. -/
def hexPairVal (c d : Char) : Nat := 16 * (hexDigitVal c).getD 0 + (hexDigitVal d).getD 0

/-- A scheme index whose colour ordering contains a duplicated name; used to
exhibit the behaviour of `get_neighbors` on the final position. -/
def dupIdx : SchemeIndex := ⟨[], [], ["a", "a"]⟩

/-- The fourteen name suffixes a palette slot can emit. -/
def slotSuffixes : List String :=
  ["-hex", "-hex-r", "-hex-g", "-hex-b", "-hex-bgr", "-rgb-r", "-rgb-g", "-rgb-b",
   "-rgb16-r", "-rgb16-g", "-rgb16-b", "-dec-r", "-dec-g", "-dec-b"]

/-! ### Helper lemmas -/

lemma charSize_eq_one {c : Char} (h : c.toNat < 128) : charSize c = 1 := by
  unfold charSize
  rw [if_pos h]

lemma hexDigitVal_toNat_lt {c : Char} (h : (hexDigitVal c).isSome) : c.toNat < 128 := by
  unfold hexDigitVal at h
  split_ifs at h with h1 h2 h3
  · simp only [Bool.and_eq_true, decide_eq_true_eq] at h1
    omega
  · simp only [Bool.and_eq_true, decide_eq_true_eq] at h2
    omega
  · simp only [Bool.and_eq_true, decide_eq_true_eq] at h3
    omega
  · simp at h

lemma hexDigitVal_lt_16 {c : Char} {d : Nat} (h : hexDigitVal c = some d) : d < 16 := by
  unfold hexDigitVal at h
  split_ifs at h with h1 h2 h3
  · simp only [Bool.and_eq_true, decide_eq_true_eq] at h1
    injection h with h
    omega
  · simp only [Bool.and_eq_true, decide_eq_true_eq] at h2
    injection h with h
    omega
  · simp only [Bool.and_eq_true, decide_eq_true_eq] at h3
    injection h with h
    omega

lemma hexDigitVal_ne_plus {c : Char} (h : (hexDigitVal c).isSome) : (c == '+') = false := by
  rw [beq_eq_false_iff_ne]
  rintro rfl
  revert h
  decide

lemma hexDigitVal_ne_minus {c : Char} (h : (hexDigitVal c).isSome) : (c == '-') = false := by
  rw [beq_eq_false_iff_ne]
  rintro rfl
  revert h
  decide

lemma takeBytes_ascii :
    ∀ (cs : List Char), (∀ c ∈ cs, charSize c = 1) →
      ∀ n, n ≤ cs.length → takeBytes cs n = some (cs.take n) := by
  intro cs
  induction cs with
  | nil =>
    intro _ n hn
    have : n = 0 := Nat.le_zero.mp hn
    subst this
    rfl
  | cons c cs ih =>
    intro h n hn
    match n with
    | 0 => rfl
    | n + 1 =>
      have hc : charSize c = 1 := h c (List.mem_cons_self c cs)
      rw [takeBytes, hc, if_pos (by omega)]
      simp only [Nat.add_sub_cancel]
      rw [ih (fun x hx => h x (List.mem_cons_of_mem c hx)) n (by simpa using hn)]
      simp [List.take_succ_cons]

lemma dropBytes_ascii :
    ∀ (cs : List Char), (∀ c ∈ cs, charSize c = 1) →
      ∀ n, n ≤ cs.length → dropBytes cs n = some (cs.drop n) := by
  intro cs
  induction cs with
  | nil =>
    intro _ n hn
    have : n = 0 := Nat.le_zero.mp hn
    subst this
    rfl
  | cons c cs ih =>
    intro h n hn
    match n with
    | 0 => rfl
    | n + 1 =>
      have hc : charSize c = 1 := h c (List.mem_cons_self c cs)
      rw [dropBytes, hc, if_pos (by omega)]
      simp only [Nat.add_sub_cancel]
      rw [ih (fun x hx => h x (List.mem_cons_of_mem c hx)) n (by simpa using hn)]
      simp [List.drop_succ_cons]

lemma utf8Len_eq_length {s : String} (h : ∀ c ∈ s.data, charSize c = 1) :
    utf8Len s = s.data.length := by
  unfold utf8Len
  rw [List.map_congr_left h]
  simp [List.map_const']

lemma mem_stripHash {s : String} {c : Char} (h : c ∈ (stripHash s).data) : c ∈ s.data :=
  (List.dropWhile_sublist _).subset h

lemma strSlice_ascii {s : String} (h : ∀ c ∈ s.data, charSize c = 1) {a b : Nat}
    (hab : a ≤ b) (hb : b ≤ s.data.length) :
    strSlice s a b = some (String.mk ((s.data.drop a).take (b - a))) := by
  unfold strSlice
  rw [dropBytes_ascii s.data h a (le_trans hab hb)]
  have hdrop : ∀ c ∈ s.data.drop a, charSize c = 1 :=
    fun c hc => h c ((List.drop_sublist a s.data).subset hc)
  rw [Option.bind_eq_bind, Option.some_bind,
    takeBytes_ascii _ hdrop (b - a) (by rw [List.length_drop]; omega)]
  rfl

/-- `position` finds the first occurrence; on a duplicate-free list this is
the occurrence itself. -/
lemma position_of_nodup :
    ∀ (l : List String), l.Nodup → ∀ i, i < l.length →
      position (fun n => n == l.getD i "") l = some i := by
  intro l
  induction l with
  | nil => intro _ i hi; simp at hi
  | cons x xs ih =>
    intro hnd i hi
    match i with
    | 0 => simp [position]
    | j + 1 =>
      have hj : j < xs.length := by simpa using hi
      have hx : ¬ (x = xs.getD j "") := by
        intro hcontra
        have hmem : xs.getD j "" ∈ xs := by
          rw [List.getD_eq_getElem _ _ hj]
          exact List.getElem_mem hj
        rw [← hcontra] at hmem
        exact (List.nodup_cons.mp hnd).1 hmem
      have hget : (x :: xs).getD (j + 1) "" = xs.getD j "" := rfl
      rw [hget, position]
      rw [if_neg (by simpa using hx)]
      rw [ih (List.nodup_cons.mp hnd).2 j hj]
      rfl

lemma position_eq_none {α : Type} {p : α → Bool} :
    ∀ {l : List α}, (∀ x ∈ l, p x = false) → position p l = none := by
  intro l
  induction l with
  | nil => intro _; rfl
  | cons x xs ih =>
    intro h
    rw [position, if_neg (by simp [h x (List.mem_cons_self x xs)]),
      ih (fun y hy => h y (List.mem_cons_of_mem x hy))]
    rfl

/-! ### C8: `sanitize_name` -/

/-- C8: for every input string, `sanitize` keeps exactly the characters in
`[A-Za-z0-9_-]`, in their original order, truncates the result at 255
characters, and in particular maps `"../../../etc/passwd"` to
`"etcpasswd"`. -/
theorem c8_sanitize_spec :
    (∀ s : String, (sanitizeName s).data =
      (s.data.filter (fun c =>
        ('A' ≤ c && c ≤ 'Z') || ('a' ≤ c && c ≤ 'z') || ('0' ≤ c && c ≤ '9')
          || c == '_' || c == '-')).take 255) ∧
    sanitizeName "../../../etc/passwd" = "etcpasswd" := by
  refine ⟨fun s => ?_, by decide⟩
  show (s.data.filter _).take 255 = _
  congr 1
  apply List.filter_congr
  intro c _
  rw [Bool.eq_iff_iff]
  simp only [isAsciiAlphanumeric, Bool.or_eq_true, Bool.and_eq_true, decide_eq_true_eq,
    beq_iff_eq]
  tauto

/-! ### C9: `get_neighbors` -/

/-- C9 counterexample: in an ordering holding the name `"a"` at both of its
two positions, `get_neighbors` on the name occupying the last position
resolves it at its first occurrence and answers `(none, some "a")`, not
`(second-to-last, none)` as the claim requires for every ordering list. -/
theorem c9_get_neighbors_cex :
    2 ≤ dupIdx.colorSorted.length ∧
    dupIdx.colorSorted.getLast? = some "a" ∧
    dupIdx.getNeighbors "a" true ≠ (some "a", none) ∧
    dupIdx.getNeighbors "a" true = (none, some "a") := by
  decide

/-- C9 (amended): for every duplicate-free ordering list of length at least
two, `get_neighbors` on the first name returns `(none, second)`, on the last
name returns `(second-to-last, none)`, and on a name not present in the
chosen list returns `(none, none)`. -/
theorem c9_get_neighbors_amended (idx : SchemeIndex) (byColor : Bool)
    (a b : String) (rest : List String)
    (hl : (if byColor then idx.colorSorted else idx.namesSorted) = a :: b :: rest)
    (hnd : (a :: b :: rest).Nodup) :
    idx.getNeighbors a byColor = (none, some b) ∧
    idx.getNeighbors ((a :: b :: rest).getD ((a :: b :: rest).length - 1) "") byColor
      = ((a :: b :: rest)[(a :: b :: rest).length - 2]?, none) ∧
    ∀ nm, nm ∉ a :: b :: rest → idx.getNeighbors nm byColor = (none, none) := by
  have len2 : 2 ≤ (a :: b :: rest).length := by simp
  refine ⟨?_, ?_, ?_⟩
  · simp only [SchemeIndex.getNeighbors]
    rw [hl]
    have h0 : position (fun n => n == a) (a :: b :: rest) = some 0 := by
      have := position_of_nodup (a :: b :: rest) hnd 0 (by simp)
      simpa using this
    rw [h0]
    simp
  · simp only [SchemeIndex.getNeighbors]
    rw [hl]
    have hlen : (a :: b :: rest).length - 1 = rest.length + 1 := by simp
    have hpos : position (fun n => n == (a :: b :: rest).getD ((a :: b :: rest).length - 1) "")
        (a :: b :: rest) = some (rest.length + 1) := by
      rw [hlen]
      exact position_of_nodup (a :: b :: rest) hnd (rest.length + 1) (by simp)
    rw [hpos]
    have hnone : (a :: b :: rest)[rest.length + 1 + 1]? = none :=
      List.getElem?_eq_none (by simp)
    have h2 : (a :: b :: rest).length - 2 = rest.length := by simp
    rw [h2]
    simp only [hnone]
  · intro nm hnm
    simp only [SchemeIndex.getNeighbors]
    rw [hl]
    rw [position_eq_none (fun x hx => by
      rw [beq_eq_false_iff_ne]
      rintro rfl
      exact hnm hx)]

/-- C9 witness: the amended statement applied to a concrete three-element
alphabetical ordering. -/
theorem c9_get_neighbors_witness :
    SchemeIndex.getNeighbors ⟨[], ["a", "b", "c"], []⟩ "a" false = (none, some "b") ∧
    SchemeIndex.getNeighbors ⟨[], ["a", "b", "c"], []⟩ "c" false = (some "b", none) ∧
    SchemeIndex.getNeighbors ⟨[], ["a", "b", "c"], []⟩ "zzz" false = (none, none) := by
  have h := c9_get_neighbors_amended ⟨[], ["a", "b", "c"], []⟩ false "a" "b" ["c"]
    rfl (by decide)
  exact ⟨h.1, by simpa using h.2.1, h.2.2 "zzz" (by decide)⟩

/-! ### C2: malformed palette values -/

/-- C2 counterexample: the slot value `"gggggg"` is not a string of six hex
digits (`'g'` is no hex digit and there is no `'#'` to strip), yet the
derived bag contains `-hex-r`, `-hex-g`, `-hex-b` and `-hex-bgr` besides
`-hex`:  the source only gates the component variables on the byte length
being 6, not on hex-digit membership. -/
theorem c2_slot_vars_cex :
    stripHash "gggggg" = "gggggg" ∧
    hexDigitVal 'g' = none ∧
    ((deriveSlotVars "base00" "gggggg").getD []).map Prod.fst
      = ["base00-hex", "base00-hex-r", "base00-hex-g", "base00-hex-b", "base00-hex-bgr"] := by
  decide

/-- C2 (amended): for every palette slot whose value, after stripping leading
`'#'` characters, does not have UTF-8 byte length exactly 6, derivation
produces only the `{slot}-hex` variable; every derived component variable is
absent. -/
theorem c2_slot_vars_amended (key value : String)
    (h : utf8Len (stripHash value) ≠ 6) :
    deriveSlotVars key value = some [(key ++ "-hex", stripHash value)] := by
  unfold deriveSlotVars
  rw [if_neg h]

/-- C2 witness: a three-character value produces only the `-hex` variable. -/
theorem c2_slot_vars_witness :
    deriveSlotVars "base00" "#abc" = some [("base00-hex", "abc")] := by
  have h := c2_slot_vars_amended "base00" "#abc" (by decide)
  simpa using h

/-! ### C4: totality of the slice step -/

/-- C4 counterexample: the palette value `"aあab"` strips to itself, has UTF-8
byte length 6, and byte offset 2 falls inside the three-byte character `'あ'`,
so the slice `&hex_value[0..2]` panics:  derivation is not total. -/
theorem c4_slice_cex :
    utf8Len (stripHash "aあab") = 6 ∧
    strSlice (stripHash "aあab") 0 2 = none ∧
    deriveSlotVars "base00" "aあab" = none := by
  decide

/-- C4 (amended): derivation never panics on a value whose characters are all
ASCII (single-byte) — in particular on every actual hex colour string; only a
value whose stripped form is 6 bytes containing a multi-byte character can
make a slice offset fall inside a character. -/
theorem c4_slice_amended (key value : String)
    (h : ∀ c ∈ value.data, c.toNat < 128) :
    (deriveSlotVars key value).isSome := by
  have hsz : ∀ c ∈ (stripHash value).data, charSize c = 1 :=
    fun c hc => charSize_eq_one (h c (mem_stripHash hc))
  unfold deriveSlotVars
  by_cases h6 : utf8Len (stripHash value) = 6
  · have hlen : (stripHash value).data.length = 6 := by
      rw [← utf8Len_eq_length hsz, h6]
    rw [if_pos h6]
    rw [strSlice_ascii hsz (by omega) (by omega),
      strSlice_ascii hsz (by omega) (by omega),
      strSlice_ascii hsz (by omega) (by omega)]
    split
    · split <;> simp
    · next o1 o2 o3 himp => exact (himp _ _ _ rfl rfl rfl).elim
  · rw [if_neg h6]
    simp

/-- C4 witness: the amended statement applied to a genuine hex value. -/
theorem c4_slice_witness : (deriveSlotVars "base00" "#f92672").isSome :=
  c4_slice_amended "base00" "#f92672" (by decide)

/-! ### C3: well-formed palette values -/

lemma u8Parse_pair {x y : Char} (hx : (hexDigitVal x).isSome) (hy : (hexDigitVal y).isSome) :
    u8FromStrRadix16 (String.mk [x, y]) = some (hexPairVal x y) := by
  obtain ⟨dx, hdx⟩ := Option.isSome_iff_exists.mp hx
  obtain ⟨dy, hdy⟩ := Option.isSome_iff_exists.mp hy
  have hx16 := hexDigitVal_lt_16 hdx
  have hy16 := hexDigitVal_lt_16 hdy
  have c1 : 0 * 16 + dx < 256 := by omega
  have c2 : (0 * 16 + dx) * 16 + dy < 256 := by omega
  have hne1 : (x == '+') = false := hexDigitVal_ne_plus hx
  have hne2 : (x == '-') = false := hexDigitVal_ne_minus hx
  simp only [u8FromStrRadix16, parseHexDigits, hdx, hdy, hne1, hne2, c1, c2, if_true,
    Bool.false_eq_true, if_false, hexPairVal, Option.getD_some]
  congr 1
  omega

/-- C3: for every palette slot whose stripped value consists of exactly six
hex digits, the derived variables are exactly:  the stripped hex string, its
three two-digit components, the components reordered B,G,R, the decimal
renderings of the three channel bytes, the channels multiplied by 257
(16-bit scaling), and the channels divided by 255 formatted to exactly six
decimal digits. -/
theorem c3_slot_vars (key value : String) (a b c d e f : Char)
    (hs : (stripHash value).data = [a, b, c, d, e, f])
    (ha : (hexDigitVal a).isSome) (hb : (hexDigitVal b).isSome)
    (hc : (hexDigitVal c).isSome) (hd : (hexDigitVal d).isSome)
    (he : (hexDigitVal e).isSome) (hf : (hexDigitVal f).isSome) :
    deriveSlotVars key value = some
      [(key ++ "-hex", String.mk [a, b, c, d, e, f]),
       (key ++ "-hex-r", String.mk [a, b]), (key ++ "-hex-g", String.mk [c, d]),
       (key ++ "-hex-b", String.mk [e, f]),
       (key ++ "-hex-bgr", String.mk [e, f, c, d, a, b]),
       (key ++ "-rgb-r", toString (hexPairVal a b)),
       (key ++ "-rgb-g", toString (hexPairVal c d)),
       (key ++ "-rgb-b", toString (hexPairVal e f)),
       (key ++ "-rgb16-r", toString (hexPairVal a b * 257)),
       (key ++ "-rgb16-g", toString (hexPairVal c d * 257)),
       (key ++ "-rgb16-b", toString (hexPairVal e f * 257)),
       (key ++ "-dec-r", fmt6 (hexPairVal a b)),
       (key ++ "-dec-g", fmt6 (hexPairVal c d)),
       (key ++ "-dec-b", fmt6 (hexPairVal e f))] := by
  have hval : stripHash value = String.mk [a, b, c, d, e, f] := String.ext hs
  have hsz : ∀ x ∈ (stripHash value).data, charSize x = 1 := by
    rw [hs]
    intro x hx
    simp only [List.mem_cons, List.not_mem_nil, or_false] at hx
    rcases hx with rfl | rfl | rfl | rfl | rfl | rfl
    · exact charSize_eq_one (hexDigitVal_toNat_lt ha)
    · exact charSize_eq_one (hexDigitVal_toNat_lt hb)
    · exact charSize_eq_one (hexDigitVal_toNat_lt hc)
    · exact charSize_eq_one (hexDigitVal_toNat_lt hd)
    · exact charSize_eq_one (hexDigitVal_toNat_lt he)
    · exact charSize_eq_one (hexDigitVal_toNat_lt hf)
  have hlen : (stripHash value).data.length = 6 := by rw [hs]; rfl
  have h6 : utf8Len (stripHash value) = 6 := by rw [utf8Len_eq_length hsz, hlen]
  have s1 : strSlice (stripHash value) 0 2 = some (String.mk [a, b]) := by
    rw [strSlice_ascii hsz (by omega) (by omega)]
    simp [hs]
  have s2 : strSlice (stripHash value) 2 4 = some (String.mk [c, d]) := by
    rw [strSlice_ascii hsz (by omega) (by omega)]
    simp [hs]
  have s3 : strSlice (stripHash value) 4 6 = some (String.mk [e, f]) := by
    rw [strSlice_ascii hsz (by omega) (by omega)]
    simp [hs]
  have hbgr : String.mk [e, f] ++ String.mk [c, d] ++ String.mk [a, b]
      = String.mk [e, f, c, d, a, b] := by
    apply String.ext
    rw [String.data_append, String.data_append]
    rfl
  unfold deriveSlotVars
  rw [if_pos h6, s1, s2, s3]
  simp only [u8Parse_pair ha hb, u8Parse_pair hc hd, u8Parse_pair he hf, hval, hbgr]
  rfl

/-- C3 witness: the statement instantiated at the hex value `"f92672"` of the
specification's worked example. -/
theorem c3_slot_vars_witness :
    deriveSlotVars "base08" "#f92672" = some
      [("base08-hex", "f92672"),
       ("base08-hex-r", "f9"), ("base08-hex-g", "26"), ("base08-hex-b", "72"),
       ("base08-hex-bgr", "7226f9"),
       ("base08-rgb-r", "249"), ("base08-rgb-g", "38"), ("base08-rgb-b", "114"),
       ("base08-rgb16-r", "63993"), ("base08-rgb16-g", "9766"), ("base08-rgb16-b", "29298"),
       ("base08-dec-r", "0.976471"), ("base08-dec-g", "0.149020"),
       ("base08-dec-b", "0.447059")] := by
  have h := c3_slot_vars "base08" "#f92672" 'f' '9' '2' '6' '7' '2'
    (by decide) (by decide) (by decide) (by decide) (by decide) (by decide) (by decide)
  exact h.trans (by decide)

/-! ### C5: greyscale classification -/

lemma foldl_count_slotIsGrey (palette : Palette) :
    ∀ (keys : List String) (n : Nat),
      keys.foldl (fun cnt key => if slotIsGrey palette key then cnt + 1 else cnt) n
        = n + keys.countP (fun k => slotIsGrey palette k) := by
  intro keys
  induction keys with
  | nil => intro n; simp
  | cons k ks ih =>
    intro n
    rw [List.foldl_cons, List.countP_cons]
    by_cases h : slotIsGrey palette k
    · rw [if_pos h, ih]
      simp only [h, if_pos]
      omega
    · rw [if_neg h, ih]
      simp [h]

/-- C5 counterexample: on the empty palette every accent slot is missing;
under the claim's reading each would be consumed as the default `"#000000"`,
whose saturation 0 qualifies, giving 8 ≥ 5 qualifying slots and hence `true`
— but the source's `is_grey_scheme` skips missing slots and returns
`false`. -/
theorem c5_grey_cex : isGreyScheme [] = false ∧ isGreyClaim [] = true := by decide

/-- C5 (amended): `is_grey_scheme` returns true if and only if at least five
of the eight accent slots are present in the palette with a stripped value
of at least six bytes and binary64 saturation `(max - min) / max` strictly
below the double `0.2` (`slotIsGrey` computes that test exactly as the
`f64` code does, so boundary colours such as `ffcccc`, with exact ratio
`1/5` but rounded value just below `0.2`, count as grey); slots missing
from the palette are skipped, not defaulted to black. -/
theorem c5_grey_amended (palette : Palette) :
    isGreyScheme palette = true ↔
      5 ≤ accentKeys.countP (fun key => slotIsGrey palette key) := by
  unfold isGreyScheme
  rw [foldl_count_slotIsGrey]
  simp

/-! ### C1: fuzzy resolution -/

lemma pickAux_mem {α : Type} (better : α → α → Bool) :
    ∀ (l : List α) (a : α), pickAux better a l = a ∨ pickAux better a l ∈ l := by
  intro l
  induction l with
  | nil => intro a; exact Or.inl rfl
  | cons x xs ih =>
    intro a
    rw [pickAux]
    rcases ih (if better x a then x else a) with h | h
    · rw [h]
      split
      · exact Or.inr (List.mem_cons_self x xs)
      · exact Or.inl rfl
    · exact Or.inr (List.mem_cons_of_mem x h)

lemma pickAux_max_le {α β : Type} [LinearOrder β] (f : α → β) :
    ∀ (l : List α) (a : α),
      f a ≤ f (pickAux (fun x y => decide (f y ≤ f x)) a l) ∧
      ∀ x ∈ l, f x ≤ f (pickAux (fun x y => decide (f y ≤ f x)) a l) := by
  intro l
  induction l with
  | nil => intro a; exact ⟨le_refl _, by simp⟩
  | cons x xs ih =>
    intro a
    rw [pickAux]
    obtain ⟨h1, h2⟩ := ih (if decide (f a ≤ f x) then x else a)
    have hstep : f a ≤ f (if decide (f a ≤ f x) then x else a) ∧
        f x ≤ f (if decide (f a ≤ f x) then x else a) := by
      by_cases h : f a ≤ f x
      · rw [if_pos (by simpa using h)]
        exact ⟨h, le_refl _⟩
      · rw [if_neg (by simpa using h)]
        exact ⟨le_refl _, le_of_not_le h⟩
    refine ⟨le_trans hstep.1 h1, ?_⟩
    intro y hy
    rcases List.mem_cons.mp hy with rfl | hy
    · exact le_trans hstep.2 h1
    · exact h2 y hy

lemma pickAux_min_le {α β : Type} [LinearOrder β] (f : α → β) :
    ∀ (l : List α) (a : α),
      f (pickAux (fun x y => decide (f x < f y)) a l) ≤ f a ∧
      ∀ x ∈ l, f (pickAux (fun x y => decide (f x < f y)) a l) ≤ f x := by
  intro l
  induction l with
  | nil => intro a; exact ⟨le_refl _, by simp⟩
  | cons x xs ih =>
    intro a
    rw [pickAux]
    obtain ⟨h1, h2⟩ := ih (if decide (f x < f a) then x else a)
    have hstep : f (if decide (f x < f a) then x else a) ≤ f a ∧
        f (if decide (f x < f a) then x else a) ≤ f x := by
      by_cases h : f x < f a
      · rw [if_pos (by simpa using h)]
        exact ⟨le_of_lt h, le_refl _⟩
      · rw [if_neg (by simpa using h)]
        exact ⟨le_refl _, le_of_not_lt h⟩
    refine ⟨le_trans h1 hstep.1, ?_⟩
    intro y hy
    rcases List.mem_cons.mp hy with rfl | hy
    · exact le_trans h1 hstep.2
    · exact h2 y hy

lemma maxByLast_spec {α β : Type} [LinearOrder β] {f : α → β} {l : List α} {m : α}
    (h : maxByLast f l = some m) : m ∈ l ∧ ∀ x ∈ l, f x ≤ f m := by
  cases l with
  | nil => simp [maxByLast, pickBy] at h
  | cons x xs =>
    rw [maxByLast, pickBy] at h
    injection h with h
    subst h
    constructor
    · rcases pickAux_mem _ xs x with h0 | h0
      · rw [h0]
        exact List.mem_cons_self x xs
      · exact List.mem_cons_of_mem x h0
    · intro y hy
      obtain ⟨h1, h2⟩ := pickAux_max_le f xs x
      rcases List.mem_cons.mp hy with rfl | hy
      · exact h1
      · exact h2 y hy

lemma minByFirst_spec {α β : Type} [LinearOrder β] {f : α → β} {l : List α} {m : α}
    (h : minByFirst f l = some m) : m ∈ l ∧ ∀ x ∈ l, f m ≤ f x := by
  cases l with
  | nil => simp [minByFirst, pickBy] at h
  | cons x xs =>
    rw [minByFirst, pickBy] at h
    injection h with h
    subst h
    constructor
    · rcases pickAux_mem _ xs x with h0 | h0
      · rw [h0]
        exact List.mem_cons_self x xs
      · exact List.mem_cons_of_mem x h0
    · intro y hy
      obtain ⟨h1, h2⟩ := pickAux_min_le f xs x
      rcases List.mem_cons.mp hy with rfl | hy
      · exact h1
      · exact h2 y hy

lemma pickBy_ne_none {α : Type} {better : α → α → Bool} {l : List α} (h : l ≠ []) :
    (pickBy better l).isSome := by
  cases l with
  | nil => exact absurd rfl h
  | cons x xs => simp [pickBy]

/-- C1: `find_fuzzy` lowercases the query (an ASCII string at every call
site, where the model of `to_lowercase` is exact) and scores it with the
binary64 Jaro-Winkler of `strsim` against every catalog name.  Whenever it
answers `some info` that record is registered under a name whose score
reaches the threshold and is maximal among all names reaching it; when no
catalog name scores at least the threshold it answers `none`; and
conversely, when some catalog name reaches the threshold and every catalog
name is registered in the scheme map (as the index construction guarantees),
it does answer `some` record. -/
theorem c1_find_fuzzy_max (idx : SchemeIndex) (query : String) (threshold : ℚ)
    (_hascii : ∀ c ∈ query.data, c.toNat < 128) :
    (∀ info, idx.findFuzzy query threshold = some info →
      ∃ name, name ∈ idx.namesSorted ∧
        threshold ≤ jaroWinkler (rustToLower query) name ∧
        (∀ other ∈ idx.namesSorted,
          threshold ≤ jaroWinkler (rustToLower query) other →
            jaroWinkler (rustToLower query) other ≤ jaroWinkler (rustToLower query) name) ∧
        idx.schemes.lookup name = some info) ∧
    ((∀ name ∈ idx.namesSorted, jaroWinkler (rustToLower query) name < threshold) →
      idx.findFuzzy query threshold = none) ∧
    ((∀ name ∈ idx.namesSorted, (idx.schemes.lookup name).isSome) →
      (∃ name ∈ idx.namesSorted, threshold ≤ jaroWinkler (rustToLower query) name) →
      ∃ info, idx.findFuzzy query threshold = some info) := by
  refine ⟨?_, ?_, ?_⟩
  · intro info hsome
    unfold SchemeIndex.findFuzzy at hsome
    obtain ⟨p, hmax, hlook⟩ := Option.bind_eq_some.mp hsome
    obtain ⟨hmem, hbound⟩ := maxByLast_spec hmax
    rw [List.mem_filter] at hmem
    obtain ⟨hmem2, hth⟩ := hmem
    obtain ⟨name, hname, rfl⟩ := List.mem_map.mp hmem2
    refine ⟨name, hname, by simpa using hth, ?_, hlook⟩
    intro other hother hoth
    have hofil : (other, jaroWinkler (rustToLower query) other) ∈
        (idx.namesSorted.map
          (fun name => (name, jaroWinkler (rustToLower query) name))).filter
          (fun p => decide (threshold ≤ p.2)) := by
      rw [List.mem_filter]
      exact ⟨List.mem_map.mpr ⟨other, hother, rfl⟩, by simpa using hoth⟩
    simpa using hbound _ hofil
  · intro hall
    simp only [SchemeIndex.findFuzzy]
    have hfil : (idx.namesSorted.map
        (fun name => (name, jaroWinkler (rustToLower query) name))).filter
        (fun p => decide (threshold ≤ p.2)) = [] := by
      rw [List.filter_eq_nil_iff]
      intro p hp
      obtain ⟨name, hname, rfl⟩ := List.mem_map.mp hp
      simp only [decide_eq_true_eq, not_le]
      exact hall name hname
    rw [hfil]
    rfl
  · intro hwf hex
    obtain ⟨nm, hnm, hth⟩ := hex
    have hfil : (nm, jaroWinkler (rustToLower query) nm) ∈
        (idx.namesSorted.map
          (fun name => (name, jaroWinkler (rustToLower query) name))).filter
          (fun p => decide (threshold ≤ p.2)) :=
      List.mem_filter.mpr ⟨List.mem_map.mpr ⟨nm, hnm, rfl⟩, by simpa using hth⟩
    have hsome : (maxByLast Prod.snd
        ((idx.namesSorted.map
          (fun name => (name, jaroWinkler (rustToLower query) name))).filter
          (fun p => decide (threshold ≤ p.2)))).isSome :=
      pickBy_ne_none (List.ne_nil_of_mem hfil)
    obtain ⟨p, hp⟩ := Option.isSome_iff_exists.mp hsome
    have hmem := (maxByLast_spec hp).1
    rw [List.mem_filter] at hmem
    obtain ⟨n2, hn2, hpe⟩ := List.mem_map.mp hmem.1
    obtain ⟨info, hinfo⟩ := Option.isSome_iff_exists.mp (hwf n2 hn2)
    refine ⟨info, ?_⟩
    simp only [SchemeIndex.findFuzzy]
    rw [hp, ← hpe]
    simpa using hinfo

set_option maxRecDepth 8000 in
/-- C1 witness: on the singleton catalog `monokai`, the query `monoki`
(whose binary64 Jaro-Winkler score against `monokai` is
`8792742129628111/2^53 ≈ 0.97619`) clears the threshold
`fl(0.8) = 3602879701896397/2^52`, so `find_fuzzy` resolves to the
registered record; every hypothesis of the theorem is discharged by
evaluating the model at these concrete inputs. -/
theorem c1_find_fuzzy_witness :
    ∃ info, SchemeIndex.findFuzzy
      ⟨[("monokai", ⟨"monokai", "data/monokai.yaml", "base16"⟩)], ["monokai"], []⟩
      "monoki" (mkRat 3602879701896397 4503599627370496) = some info :=
  (c1_find_fuzzy_max
    ⟨[("monokai", ⟨"monokai", "data/monokai.yaml", "base16"⟩)], ["monokai"], []⟩
    "monoki" (mkRat 3602879701896397 4503599627370496)
    (by decide)).2.2 (by decide) ⟨"monokai", by decide, by decide⟩

/-! ### C10: determinism of the variable deriver -/

lemma slotSuffixes_suffix_eq :
    ∀ s1 ∈ slotSuffixes, ∀ s2 ∈ slotSuffixes, s1.data <:+ s2.data → s1 = s2 := by
  decide

lemma deriveSlotVars_name {key value : String} {l : List (String × String)}
    (h : deriveSlotVars key value = some l) :
    ∀ pr ∈ l, ∃ s ∈ slotSuffixes, pr.1 = key ++ s := by
  simp only [deriveSlotVars] at h
  split_ifs at h with h6
  · split at h
    · split at h
      · injection h with h
        subst h
        intro pr hpr
        simp only [List.mem_append, List.mem_cons, List.not_mem_nil, or_false] at hpr
        rcases hpr with ((rfl | rfl | rfl | rfl | rfl) | rfl | rfl | rfl | rfl | rfl | rfl | rfl | rfl | rfl) <;>
          first
            | exact ⟨"-hex", by decide, rfl⟩
            | exact ⟨"-hex-r", by decide, rfl⟩
            | exact ⟨"-hex-g", by decide, rfl⟩
            | exact ⟨"-hex-b", by decide, rfl⟩
            | exact ⟨"-hex-bgr", by decide, rfl⟩
            | exact ⟨"-rgb-r", by decide, rfl⟩
            | exact ⟨"-rgb-g", by decide, rfl⟩
            | exact ⟨"-rgb-b", by decide, rfl⟩
            | exact ⟨"-rgb16-r", by decide, rfl⟩
            | exact ⟨"-rgb16-g", by decide, rfl⟩
            | exact ⟨"-rgb16-b", by decide, rfl⟩
            | exact ⟨"-dec-r", by decide, rfl⟩
            | exact ⟨"-dec-g", by decide, rfl⟩
            | exact ⟨"-dec-b", by decide, rfl⟩
      · injection h with h
        subst h
        intro pr hpr
        simp only [List.mem_append, List.mem_cons, List.not_mem_nil, or_false] at hpr
        rcases hpr with (rfl | rfl | rfl | rfl | rfl) <;>
          first
            | exact ⟨"-hex", by decide, rfl⟩
            | exact ⟨"-hex-r", by decide, rfl⟩
            | exact ⟨"-hex-g", by decide, rfl⟩
            | exact ⟨"-hex-b", by decide, rfl⟩
            | exact ⟨"-hex-bgr", by decide, rfl⟩
    · cases h
  · injection h with h
    subst h
    intro pr hpr
    simp only [List.mem_cons, List.not_mem_nil, or_false] at hpr
    subst hpr
    exact ⟨"-hex", by decide, rfl⟩

lemma string_append_inj {k1 k2 s1 s2 : String}
    (h1 : s1 ∈ slotSuffixes) (h2 : s2 ∈ slotSuffixes)
    (h : k1 ++ s1 = k2 ++ s2) : k1 = k2 ∧ s1 = s2 := by
  have hd : k1.data ++ s1.data = k2.data ++ s2.data := by
    rw [← String.data_append, ← String.data_append, h]
  have hsuf : s1.data <:+ s2.data ∨ s2.data <:+ s1.data := by
    have e1 : s1.data <:+ k2.data ++ s2.data := hd ▸ List.suffix_append k1.data s1.data
    have e2 : s2.data <:+ k2.data ++ s2.data := List.suffix_append k2.data s2.data
    exact List.suffix_or_suffix_of_suffix e1 e2
  have hs : s1 = s2 := by
    rcases hsuf with hsuf | hsuf
    · exact slotSuffixes_suffix_eq s1 h1 s2 h2 hsuf
    · exact (slotSuffixes_suffix_eq s2 h2 s1 h1 hsuf).symm
  subst hs
  have hk := List.append_cancel_right hd
  exact ⟨String.ext hk, rfl⟩

lemma deriveSlot_disjoint {k1 v1 k2 v2 : String} {l1 l2 : List (String × String)}
    (hk : k1 ≠ k2) (h1 : deriveSlotVars k1 v1 = some l1)
    (h2 : deriveSlotVars k2 v2 = some l2) :
    ∀ pr1 ∈ l1, ∀ pr2 ∈ l2, pr1.1 ≠ pr2.1 := by
  intro pr1 hp1 pr2 hp2 heq
  obtain ⟨s1, hs1, e1⟩ := deriveSlotVars_name h1 pr1 hp1
  obtain ⟨s2, hs2, e2⟩ := deriveSlotVars_name h2 pr2 hp2
  rw [e1, e2] at heq
  exact hk (string_append_inj hs1 hs2 heq).1

lemma derivePalette_cons {k v : String} {rest : List (String × String)}
    {l : List (String × String)} (h : derivePalette ((k, v) :: rest) = some l) :
    ∃ b lr, deriveSlotVars k v = some b ∧ derivePalette rest = some lr ∧ l = b ++ lr := by
  unfold derivePalette at h
  rcases hb : deriveSlotVars k v with _ | b <;> rw [hb] at h
  · cases h
  · rcases hr : derivePalette rest with _ | lr <;> rw [hr] at h
    · cases h
    · injection h with h
      exact ⟨b, lr, rfl, rfl, h.symm⟩

lemma derivePalette_none_iff (p : List (String × String)) :
    derivePalette p = none ↔ ∃ pr ∈ p, deriveSlotVars pr.1 pr.2 = none := by
  induction p with
  | nil => simp [derivePalette]
  | cons kv rest ih =>
    obtain ⟨k, v⟩ := kv
    constructor
    · intro h
      unfold derivePalette at h
      rcases hb : deriveSlotVars k v with _ | b <;> rw [hb] at h
      · exact ⟨(k, v), List.mem_cons_self _ _, hb⟩
      · rcases hr : derivePalette rest with _ | lr <;> rw [hr] at h
        · obtain ⟨pr, hm, he⟩ := ih.mp hr
          exact ⟨pr, List.mem_cons_of_mem _ hm, he⟩
        · cases h
    · rintro ⟨pr, hm, he⟩
      rcases List.mem_cons.mp hm with heq | hm
      · unfold derivePalette
        rw [show pr.1 = k from by rw [heq], show pr.2 = v from by rw [heq]] at he
        rw [he]
      · have hr : derivePalette rest = none := ih.mpr ⟨pr, hm, he⟩
        unfold derivePalette
        rw [hr]
        rcases deriveSlotVars k v with _ | b <;> rfl

lemma filter_comm_of_disjoint {A B : List (String × String)}
    (hdis : ∀ a ∈ A, ∀ b ∈ B, a.1 ≠ b.1) (n : String) :
    A.filter (fun pr => pr.1 == n) ++ B.filter (fun pr => pr.1 == n)
      = B.filter (fun pr => pr.1 == n) ++ A.filter (fun pr => pr.1 == n) := by
  by_cases hA : A.filter (fun pr => pr.1 == n) = []
  · rw [hA, List.nil_append, List.append_nil]
  · have hB : B.filter (fun pr => pr.1 == n) = [] := by
      rw [List.filter_eq_nil_iff]
      intro b hb hbn
      obtain ⟨a, ha⟩ := List.exists_mem_of_ne_nil _ hA
      have han := List.of_mem_filter ha
      have haA := List.mem_of_mem_filter ha
      rw [beq_iff_eq] at han hbn
      exact hdis a haA b hb (han.trans hbn.symm)
    rw [hB, List.nil_append, List.append_nil]

lemma derivePalette_filter_perm {p1 p2 : List (String × String)} (hperm : p1.Perm p2) :
    (p1.map Prod.fst).Nodup →
      ∀ {l1 l2 : List (String × String)}, derivePalette p1 = some l1 →
        derivePalette p2 = some l2 →
        ∀ n, l1.filter (fun pr => pr.1 == n) = l2.filter (fun pr => pr.1 == n) := by
  induction hperm with
  | nil =>
    intro _ l1 l2 h1 h2 n
    unfold derivePalette at h1 h2
    injection h1 with h1
    injection h2 with h2
    subst h1
    subst h2
    rfl
  | cons x hpq ih =>
    intro hnd l1 l2 h1 h2 n
    obtain ⟨k, v⟩ := x
    obtain ⟨b1, lr1, hb1, hr1, rfl⟩ := derivePalette_cons h1
    obtain ⟨b2, lr2, hb2, hr2, rfl⟩ := derivePalette_cons h2
    rw [hb1] at hb2
    injection hb2 with hb2
    subst hb2
    rw [List.filter_append, List.filter_append,
      ih (by simpa using (List.nodup_cons.mp (by simpa using hnd)).2) hr1 hr2 n]
  | swap x y p =>
    intro hnd l1 l2 h1 h2 n
    obtain ⟨kx, vx⟩ := x
    obtain ⟨ky, vy⟩ := y
    obtain ⟨by1, lr1, hby1, hr1, rfl⟩ := derivePalette_cons h1
    obtain ⟨bx1, lp1, hbx1, hp1, rfl⟩ := derivePalette_cons hr1
    obtain ⟨bx2, lr2, hbx2, hr2, rfl⟩ := derivePalette_cons h2
    obtain ⟨by2, lp2, hby2, hp2, rfl⟩ := derivePalette_cons hr2
    rw [hby1] at hby2
    injection hby2 with hby2
    subst hby2
    rw [hbx1] at hbx2
    injection hbx2 with hbx2
    subst hbx2
    rw [hp1] at hp2
    injection hp2 with hp2
    subst hp2
    have hkxy : ky ≠ kx := by
      simp only [List.map_cons, List.nodup_cons, List.mem_cons] at hnd
      exact fun hcontra => hnd.1 (Or.inl hcontra)
    have hdis : ∀ a ∈ by1, ∀ b ∈ bx1, a.1 ≠ b.1 :=
      deriveSlot_disjoint hkxy hby1 hbx1
    rw [List.filter_append, List.filter_append, List.filter_append, List.filter_append,
      ← List.append_assoc, ← List.append_assoc, filter_comm_of_disjoint hdis n]
  | trans hpq hqr ihpq ihqr =>
    intro hnd l1 l2 h1 h2 n
    rename_i p q r
    have hq : ∃ lq, derivePalette q = some lq := by
      rcases hq0 : derivePalette q with _ | lq
      · rw [derivePalette_none_iff] at hq0
        obtain ⟨pr, hm, he⟩ := hq0
        have hmem : pr ∈ p := hpq.mem_iff.mpr hm
        have : derivePalette p = none := (derivePalette_none_iff _).mpr ⟨pr, hmem, he⟩
        rw [h1] at this
        cases this
      · exact ⟨lq, rfl⟩
    obtain ⟨lq, hq⟩ := hq
    have hnd2 : (q.map Prod.fst).Nodup := ((hpq.map Prod.fst).nodup_iff).mp hnd
    rw [ihpq hnd h1 hq n, ihqr hnd2 hq h2 n]

/-- C10: variable derivation is deterministic.  The only run-to-run freedom in
the source is the iteration order of the palette `HashMap`; for any two
palettes holding the same key-value mapping (association lists that are
permutations of each other, keys unique), the derived bags agree on every
variable: the same keys are present with bit-for-bit identical values (and a
panic occurs in one run exactly when it occurs in the other). -/
theorem c10_derive_deterministic (name author system variant : String)
    (p1 p2 : List (String × String)) (hperm : p1.Perm p2)
    (hnd : (p1.map Prod.fst).Nodup) :
    ((deriveVars name author system variant p1).isSome ↔
      (deriveVars name author system variant p2).isSome) ∧
    (∀ l1 l2, deriveVars name author system variant p1 = some l1 →
      deriveVars name author system variant p2 = some l2 →
      ∀ k, lastLookup l1 k = lastLookup l2 k) := by
  have hsome : ∀ (p : List (String × String)),
      (deriveVars name author system variant p).isSome = (derivePalette p).isSome := by
    intro p
    simp only [deriveVars]
    rcases derivePalette p with _ | pv <;> rfl
  constructor
  · rw [hsome p1, hsome p2]
    constructor
    · intro h
      rcases hq : derivePalette p2 with _ | l
      · rw [derivePalette_none_iff] at hq
        obtain ⟨pr, hm, he⟩ := hq
        have : derivePalette p1 = none :=
          (derivePalette_none_iff _).mpr ⟨pr, hperm.mem_iff.mpr hm, he⟩
        rw [this] at h
        cases h
      · simp [hq]
    · intro h
      rcases hq : derivePalette p1 with _ | l
      · rw [derivePalette_none_iff] at hq
        obtain ⟨pr, hm, he⟩ := hq
        have : derivePalette p2 = none :=
          (derivePalette_none_iff _).mpr ⟨pr, hperm.mem_iff.mp hm, he⟩
        rw [this] at h
        cases h
      · simp [hq]
  · intro l1 l2 h1 h2 k
    simp only [deriveVars] at h1 h2
    rcases hpv1 : derivePalette p1 with _ | pv1 <;> rw [hpv1] at h1
    · cases h1
    rcases hpv2 : derivePalette p2 with _ | pv2 <;> rw [hpv2] at h2
    · cases h2
    injection h1 with h1
    injection h2 with h2
    subst h1
    subst h2
    have hfeq : ∀ (pv : List (String × String)),
        List.filter ((fun pr : String × VarValue => pr.1 == k) ∘
          (fun p => (p.1, VarValue.str p.2))) pv
          = List.filter (fun pr => pr.1 == k) pv := by
      intro pv
      apply List.filter_congr
      intro pr _
      rfl
    unfold lastLookup
    simp only [List.filter_append, List.filter_map]
    rw [hfeq pv1, hfeq pv2, derivePalette_filter_perm hperm hnd hpv1 hpv2 k]

/-- C10 witness: two iteration orders of the same two-slot palette produce
bags agreeing on a derived variable. -/
theorem c10_derive_deterministic_witness :
    lastLookup ((deriveVars "Monokai" "Wimer Hazenberg" "base16" "dark"
        [("base00", "#272822"), ("base05", "#f8f8f2")]).getD []) "base00-hex"
      = lastLookup ((deriveVars "Monokai" "Wimer Hazenberg" "base16" "dark"
        [("base05", "#f8f8f2"), ("base00", "#272822")]).getD []) "base00-hex" := by
  have h := c10_derive_deterministic "Monokai" "Wimer Hazenberg" "base16" "dark"
    [("base00", "#272822"), ("base05", "#f8f8f2")]
    [("base05", "#f8f8f2"), ("base00", "#272822")]
    (List.Perm.swap ("base05", "#f8f8f2") ("base00", "#272822") [])
    (by decide)
  exact h.2 _ _ (by rfl) (by rfl) "base00-hex"

/-! ### C6 and C7: the greedy colour traversal -/

lemma pickBy_none_eq {α : Type} {better : α → α → Bool} {l : List α}
    (h : pickBy better l = none) : l = [] := by
  cases l with
  | nil => rfl
  | cons x xs => simp [pickBy] at h

lemma getLastD_eq_getD {α : Type} (l : List α) (d : α) :
    l.getLastD d = l.getD (l.length - 1) d := by
  rw [List.getLastD_eq_getLast?, List.getLast?_eq_getElem?, List.getD_eq_getElem?_getD]

lemma getD_mem {α : Type} {l : List α} {i : Nat} (h : i < l.length) (d : α) :
    l.getD i d ∈ l := by
  rw [List.getD_eq_getElem _ _ h]
  exact List.getElem_mem h

lemma greedyAux_extend (vs : List (List ℤ)) :
    ∀ (fuel : Nat) (order : List Nat), ∃ t, greedyAux vs fuel order = order ++ t := by
  intro fuel
  induction fuel with
  | zero => intro order; exact ⟨[], by simp [greedyAux]⟩
  | succ f ih =>
    intro order
    rcases hm : minByFirst (fun i => distSq (vs.getD (order.getLastD 0) []) (vs.getD i []))
        ((List.range vs.length).filter (fun i => !(order.contains i))) with _ | next
    · simp only [greedyAux, hm]
      exact ih order
    · simp only [greedyAux, hm]
      obtain ⟨t, ht⟩ := ih (order ++ [next])
      exact ⟨[next] ++ t, by rw [ht, List.append_assoc]⟩

lemma greedyAux_invariant (vs : List (List ℤ)) :
    ∀ (fuel : Nat) (order : List Nat), order.Nodup → (∀ i ∈ order, i < vs.length) →
      (greedyAux vs fuel order).Nodup ∧ (∀ i ∈ greedyAux vs fuel order, i < vs.length) := by
  intro fuel
  induction fuel with
  | zero => intro order h1 h2; exact ⟨h1, h2⟩
  | succ f ih =>
    intro order h1 h2
    rcases hm : minByFirst (fun i => distSq (vs.getD (order.getLastD 0) []) (vs.getD i []))
        ((List.range vs.length).filter (fun i => !(order.contains i))) with _ | next
    · simp only [greedyAux, hm]
      exact ih order h1 h2
    · simp only [greedyAux, hm]
      obtain ⟨hmem, _⟩ := minByFirst_spec hm
      rw [List.mem_filter] at hmem
      obtain ⟨hrange, hnot⟩ := hmem
      have hlt : next < vs.length := List.mem_range.mp hrange
      have hnin : next ∉ order := by simpa using hnot
      apply ih
      · simp [List.nodup_append, h1, hnin]
      · intro i hi
        rcases List.mem_append.mp hi with hi | hi
        · exact h2 i hi
        · simp only [List.mem_cons, List.not_mem_nil, or_false] at hi
          subst hi
          exact hlt

lemma greedyAux_length (vs : List (List ℤ)) :
    ∀ (fuel : Nat) (order : List Nat), order.Nodup → (∀ i ∈ order, i < vs.length) →
      vs.length ≤ order.length + fuel → (greedyAux vs fuel order).length = vs.length := by
  intro fuel
  induction fuel with
  | zero =>
    intro order h1 h2 h3
    have hle : order.length ≤ vs.length := by
      have hsub : order ⊆ List.range vs.length := fun i hi => List.mem_range.mpr (h2 i hi)
      have := (List.subperm_of_subset h1 hsub).length_le
      simpa using this
    simp only [greedyAux]
    omega
  | succ f ih =>
    intro order h1 h2 h3
    rcases hm : minByFirst (fun i => distSq (vs.getD (order.getLastD 0) []) (vs.getD i []))
        ((List.range vs.length).filter (fun i => !(order.contains i))) with _ | next
    · have hfil : (List.range vs.length).filter (fun i => !(order.contains i)) = [] := by
        rcases hl : (List.range vs.length).filter (fun i => !(order.contains i)) with _ | ⟨x, xs⟩
        · rfl
        · rw [hl] at hm
          simp [minByFirst, pickBy] at hm
      have hall : ∀ i, i < vs.length → i ∈ order := by
        intro i hi
        by_contra hni
        have hmem : i ∈ (List.range vs.length).filter (fun i => !(order.contains i)) := by
          rw [List.mem_filter]
          exact ⟨List.mem_range.mpr hi, by simpa using hni⟩
        rw [hfil] at hmem
        cases hmem
      have hge : vs.length ≤ order.length := by
        have hsub : List.range vs.length ⊆ order := fun i hi => hall i (List.mem_range.mp hi)
        have := (List.subperm_of_subset (List.nodup_range _) hsub).length_le
        simpa using this
      simp only [greedyAux, hm]
      exact ih order h1 h2 (by omega)
    · obtain ⟨hmem, _⟩ := minByFirst_spec hm
      rw [List.mem_filter] at hmem
      obtain ⟨hrange, hnot⟩ := hmem
      have hlt : next < vs.length := List.mem_range.mp hrange
      have hnin : next ∉ order := by simpa using hnot
      simp only [greedyAux, hm]
      rw [ih (order ++ [next]) (by simp [List.nodup_append, h1, hnin])
        (fun i hi => by
          rcases List.mem_append.mp hi with hi | hi
          · exact h2 i hi
          · simp only [List.mem_cons, List.not_mem_nil, or_false] at hi
            subst hi
            exact hlt)
        (by simp; omega)]

lemma greedyAux_min (vs : List (List ℤ)) :
    ∀ (fuel : Nat) (order : List Nat), order ≠ [] → order.Nodup →
      (∀ i ∈ order, i < vs.length) →
      ∀ k m, order.length - 1 ≤ k → k + 1 < (greedyAux vs fuel order).length →
        k + 1 ≤ m → m < (greedyAux vs fuel order).length →
        distSq (vs.getD ((greedyAux vs fuel order).getD k 0) [])
            (vs.getD ((greedyAux vs fuel order).getD (k + 1) 0) [])
          ≤ distSq (vs.getD ((greedyAux vs fuel order).getD k 0) [])
              (vs.getD ((greedyAux vs fuel order).getD m 0) []) := by
  intro fuel
  induction fuel with
  | zero =>
    intro order hne h1 h2 k m hk hk1 hm1 hm2
    simp only [greedyAux] at hk1
    omega
  | succ f ih =>
    intro order hne h1 h2 k m hk hk1 hm1 hm2
    rcases hmb : minByFirst (fun i => distSq (vs.getD (order.getLastD 0) []) (vs.getD i []))
        ((List.range vs.length).filter (fun i => !(order.contains i))) with _ | next
    · simp only [greedyAux, hmb] at hk1 hm2 ⊢
      exact ih order hne h1 h2 k m hk hk1 hm1 hm2
    · obtain ⟨hmem, hmin⟩ := minByFirst_spec hmb
      rw [List.mem_filter] at hmem
      obtain ⟨hrange, hnot⟩ := hmem
      have hnextlt : next < vs.length := List.mem_range.mp hrange
      have hnextnin : next ∉ order := by simpa using hnot
      have hnd2 : (order ++ [next]).Nodup := by simp [List.nodup_append, h1, hnextnin]
      have hb2 : ∀ i ∈ order ++ [next], i < vs.length := fun i hi => by
        rcases List.mem_append.mp hi with hi | hi
        · exact h2 i hi
        · simp only [List.mem_cons, List.not_mem_nil, or_false] at hi
          subst hi
          exact hnextlt
      simp only [greedyAux, hmb] at hk1 hm2 ⊢
      by_cases hcase : order.length ≤ k
      · exact ih (order ++ [next]) (by simp) hnd2 hb2 k m (by simp; omega) hk1 hm1 hm2
      · have hlen1 : 1 ≤ order.length := List.length_pos.mpr hne
        have hkeq : k = order.length - 1 := by omega
        obtain ⟨t, ht⟩ := greedyAux_extend vs f (order ++ [next])
        obtain ⟨hrnd, hrlt⟩ := greedyAux_invariant vs f (order ++ [next]) hnd2 hb2
        have hplen : (order ++ [next]).length = order.length + 1 := by simp
        have hgk : (greedyAux vs f (order ++ [next])).getD k 0 = order.getLastD 0 := by
          rw [ht, List.getD_append _ _ _ _ (by simp; omega),
            List.getD_append _ _ _ _ (by omega), getLastD_eq_getD, hkeq]
        have hgk1 : (greedyAux vs f (order ++ [next])).getD (k + 1) 0 = next := by
          have hk1eq : k + 1 = order.length := by omega
          rw [ht, List.getD_append _ _ _ _ (by simp; omega), hk1eq,
            List.getD_append_right _ _ _ _ (le_refl _)]
          simp
        rw [hgk, hgk1]
        rcases Nat.eq_or_lt_of_le hm1 with rfl | hmgt
        · rw [hgk1]
        · have hxmem : (greedyAux vs f (order ++ [next])).getD m 0
              ∈ greedyAux vs f (order ++ [next]) := getD_mem hm2 0
          have hxlt : (greedyAux vs f (order ++ [next])).getD m 0 < vs.length :=
            hrlt _ hxmem
          have hplenr : order.length + 1 ≤ (greedyAux vs f (order ++ [next])).length := by
            rw [ht]
            simp
          have hxnin : (greedyAux vs f (order ++ [next])).getD m 0 ∉ order := by
            intro hxin
            obtain ⟨p, hp, hpe⟩ := List.getElem_of_mem hxin
            have hgp : (greedyAux vs f (order ++ [next])).getD p 0
                = (greedyAux vs f (order ++ [next])).getD m 0 := by
              rw [ht, List.getD_append _ _ _ _ (by simp; omega),
                List.getD_append _ _ _ _ hp, List.getD_eq_getElem _ _ hp, ← ht]
              exact hpe
            have hpm : p = m := by
              rw [List.getD_eq_getElem _ _
                  (show p < (greedyAux vs f (order ++ [next])).length by omega),
                List.getD_eq_getElem _ _ hm2] at hgp
              exact (List.Nodup.getElem_inj_iff hrnd).mp hgp
            omega
          have hxfil : (greedyAux vs f (order ++ [next])).getD m 0
              ∈ (List.range vs.length).filter (fun i => !(order.contains i)) := by
            rw [List.mem_filter]
            exact ⟨List.mem_range.mpr hxlt, by simpa using hxnin⟩
          exact hmin _ hxfil

/-- The greedy pre-partition order visits each candidate index exactly once. -/
lemma preOrderIdx_perm (schemes : List (String × Palette)) :
    (preOrderIdx schemes).Perm (List.range (sortedSchemes schemes).length) := by
  unfold preOrderIdx
  by_cases h0 : (sortedSchemes schemes).length = 0
  · rw [if_pos h0, h0]
    rfl
  · rw [if_neg h0]
    have hvlen : (schemeVecs schemes).length = (sortedSchemes schemes).length :=
      List.length_map _ _
    have hstart : startIdx (schemeVecs schemes) < (schemeVecs schemes).length := by
      unfold startIdx
      rcases hm : minByFirst (fun i => vec3sum ((schemeVecs schemes).getD i []))
          (List.range (schemeVecs schemes).length) with _ | m
      · have := pickBy_none_eq hm
        have : (schemeVecs schemes).length = 0 := by simpa using congrArg List.length this
        omega
      · obtain ⟨hmem, _⟩ := minByFirst_spec hm
        simpa using List.mem_range.mp hmem
    have hnd0 : ([startIdx (schemeVecs schemes)] : List Nat).Nodup := by simp
    have hb0 : ∀ i ∈ [startIdx (schemeVecs schemes)], i < (schemeVecs schemes).length := by
      intro i hi
      simp only [List.mem_cons, List.not_mem_nil, or_false] at hi
      subst hi
      exact hstart
    obtain ⟨hnd, hbnd⟩ := greedyAux_invariant (schemeVecs schemes) _ _ hnd0 hb0
    have hlen := greedyAux_length (schemeVecs schemes)
      ((sortedSchemes schemes).length - 1) [startIdx (schemeVecs schemes)] hnd0 hb0
      (by simp [hvlen]; omega)
    have hsub : greedyAux (schemeVecs schemes) ((sortedSchemes schemes).length - 1)
        [startIdx (schemeVecs schemes)] ⊆ List.range (sortedSchemes schemes).length :=
      fun i hi => List.mem_range.mpr (hvlen ▸ hbnd i hi)
    have hsp := List.subperm_of_subset hnd hsub
    exact hsp.perm_of_length_le (by simp [hlen, hvlen])

lemma range_map_getD {α β : Type} (l : List α) (d : α) (f : α → β) :
    (List.range l.length).map (fun i => f (l.getD i d)) = l.map f := by
  apply List.ext_getElem
  · simp
  · intro n h1 h2
    simp only [List.getElem_map, List.getElem_range]
    rw [List.getD_eq_getElem _ _ (by simpa using h2)]

/-- C6: the colour order is a permutation of the parsed scheme names; it is
the greedy traversal order partitioned into the non-grey names followed by
the grey names, each group keeping the traversal's relative order; and every
grey entry sits strictly after every non-grey entry. -/
theorem c6_color_order_partition (schemes : List (String × Palette)) :
    (computeColorOrder schemes).Perm (schemes.map Prod.fst) ∧
    colorOrderIdx schemes
      = (preOrderIdx schemes).filter
          (fun i => !(isGreyScheme ((sortedSchemes schemes).getD i ("", [])).2))
        ++ (preOrderIdx schemes).filter
          (fun i => isGreyScheme ((sortedSchemes schemes).getD i ("", [])).2) ∧
    (∀ i j, i < (colorOrderIdx schemes).length → j < (colorOrderIdx schemes).length →
      isGreyScheme ((sortedSchemes schemes).getD
        ((colorOrderIdx schemes).getD i 0) ("", [])).2 = false →
      isGreyScheme ((sortedSchemes schemes).getD
        ((colorOrderIdx schemes).getD j 0) ("", [])).2 = true →
      i < j) := by
  have hpart : colorOrderIdx schemes
      = (preOrderIdx schemes).filter
          (fun i => !(isGreyScheme ((sortedSchemes schemes).getD i ("", [])).2))
        ++ (preOrderIdx schemes).filter
          (fun i => isGreyScheme ((sortedSchemes schemes).getD i ("", [])).2) := by
    simp only [colorOrderIdx, List.partition_eq_filter_filter]
    congr 1
    apply List.filter_congr
    intro i _
    simp [Function.comp]
  refine ⟨?_, hpart, ?_⟩
  · have hperm2 : (colorOrderIdx schemes).Perm (preOrderIdx schemes) := by
      rw [hpart]
      have := List.filter_append_perm
        (fun i => !(isGreyScheme ((sortedSchemes schemes).getD i ("", [])).2))
        (preOrderIdx schemes)
      have heq : (preOrderIdx schemes).filter
          (fun i => !(!(isGreyScheme ((sortedSchemes schemes).getD i ("", [])).2)))
          = (preOrderIdx schemes).filter
            (fun i => isGreyScheme ((sortedSchemes schemes).getD i ("", [])).2) := by
        apply List.filter_congr
        intro i _
        simp
      rw [heq] at this
      exact this
    have hperm3 : (computeColorOrder schemes).Perm
        ((List.range (sortedSchemes schemes).length).map
          (fun i => ((sortedSchemes schemes).getD i ("", [])).1)) := by
      unfold computeColorOrder
      exact (hperm2.trans (preOrderIdx_perm schemes)).map _
    have hmapeq : (List.range (sortedSchemes schemes).length).map
        (fun i => ((sortedSchemes schemes).getD i ("", [])).1)
        = (sortedSchemes schemes).map Prod.fst :=
      range_map_getD (sortedSchemes schemes) ("", []) Prod.fst
    rw [hmapeq] at hperm3
    exact hperm3.trans ((List.mergeSort_perm schemes _).map Prod.fst)
  · intro i j hi hj hgf hgt
    set A := (preOrderIdx schemes).filter
      (fun i => !(isGreyScheme ((sortedSchemes schemes).getD i ("", [])).2)) with hA
    set B := (preOrderIdx schemes).filter
      (fun i => isGreyScheme ((sortedSchemes schemes).getD i ("", [])).2) with hB
    have hlen : (colorOrderIdx schemes).length = A.length + B.length := by
      rw [hpart, List.length_append]
    have hiA : i < A.length := by
      by_contra hni
      push_neg at hni
      have hmem : (colorOrderIdx schemes).getD i 0 ∈ B := by
        rw [hpart, List.getD_append_right _ _ _ _ hni]
        exact getD_mem (by omega) 0
      have := List.of_mem_filter hmem
      rw [hgf] at this
      cases this
    have hjB : ¬ (j < A.length) := by
      intro hjA
      have hmem : (colorOrderIdx schemes).getD j 0 ∈ A := by
        rw [hpart, List.getD_append _ _ _ _ hjA]
        exact getD_mem hjA 0
      have := List.of_mem_filter hmem
      rw [hgt] at this
      cases this
    omega

/-- C6 witness: a two-scheme catalog (one colourful, one grey) whose colour
order is a permutation of the parsed names. -/
theorem c6_color_order_witness :
    (computeColorOrder
      [("b", [("base00", "#ffffff"), ("base08", "#ff0000"), ("base09", "#00ff00"),
              ("base0A", "#0000ff"), ("base0B", "#ff00ff"), ("base0C", "#ffff00")]),
       ("a", [("base00", "#000000"), ("base08", "#111111"), ("base09", "#101010"),
              ("base0A", "#111111"), ("base0B", "#121212"), ("base0C", "#131313")])]).Perm
      ["b", "a"] :=
  (c6_color_order_partition _).1

/-- C7: the greedy traversal visits every candidate exactly once, starts at a
scheme whose slot-0 RGB sum is minimal over all candidates, and at every step
the appended scheme is at minimal Euclidean distance from the last-visited
one among all schemes not yet visited (distance comparisons are stated on the
exact squared distances, which order exactly as the source's `f64` square
roots do). -/
theorem c7_greedy_traversal (schemes : List (String × Palette))
    (hne : schemes ≠ []) :
    (preOrderIdx schemes).Perm (List.range (sortedSchemes schemes).length) ∧
    (∀ i, i < (sortedSchemes schemes).length →
      vec3sum ((schemeVecs schemes).getD ((preOrderIdx schemes).getD 0 0) [])
        ≤ vec3sum ((schemeVecs schemes).getD i [])) ∧
    (∀ k m, k + 1 < (preOrderIdx schemes).length → k + 1 ≤ m →
      m < (preOrderIdx schemes).length →
      distSq ((schemeVecs schemes).getD ((preOrderIdx schemes).getD k 0) [])
          ((schemeVecs schemes).getD ((preOrderIdx schemes).getD (k + 1) 0) [])
        ≤ distSq ((schemeVecs schemes).getD ((preOrderIdx schemes).getD k 0) [])
            ((schemeVecs schemes).getD ((preOrderIdx schemes).getD m 0) [])) := by
  have hn0 : (sortedSchemes schemes).length ≠ 0 := by
    unfold sortedSchemes
    rw [List.length_mergeSort]
    intro h
    exact hne (List.length_eq_zero.mp h)
  have hvlen : (schemeVecs schemes).length = (sortedSchemes schemes).length :=
    List.length_map _ _
  have hpre : preOrderIdx schemes
      = greedyAux (schemeVecs schemes) ((sortedSchemes schemes).length - 1)
        [startIdx (schemeVecs schemes)] := by
    unfold preOrderIdx
    rw [if_neg hn0]
  have hstartmin : ∀ i, i < (schemeVecs schemes).length →
      vec3sum ((schemeVecs schemes).getD (startIdx (schemeVecs schemes)) [])
        ≤ vec3sum ((schemeVecs schemes).getD i []) := by
    intro i hi
    unfold startIdx
    rcases hm : minByFirst (fun i => vec3sum ((schemeVecs schemes).getD i []))
        (List.range (schemeVecs schemes).length) with _ | m
    · have := pickBy_none_eq hm
      have : (schemeVecs schemes).length = 0 := by simpa using congrArg List.length this
      omega
    · obtain ⟨_, hmin⟩ := minByFirst_spec hm
      simpa using hmin i (List.mem_range.mpr hi)
  have hstart : startIdx (schemeVecs schemes) < (schemeVecs schemes).length := by
    unfold startIdx
    rcases hm : minByFirst (fun i => vec3sum ((schemeVecs schemes).getD i []))
        (List.range (schemeVecs schemes).length) with _ | m
    · have := pickBy_none_eq hm
      have : (schemeVecs schemes).length = 0 := by simpa using congrArg List.length this
      omega
    · obtain ⟨hmem, _⟩ := minByFirst_spec hm
      simpa using List.mem_range.mp hmem
  refine ⟨preOrderIdx_perm schemes, ?_, ?_⟩
  · intro i hi
    obtain ⟨t, ht⟩ := greedyAux_extend (schemeVecs schemes)
      ((sortedSchemes schemes).length - 1) [startIdx (schemeVecs schemes)]
    have hhead : (preOrderIdx schemes).getD 0 0 = startIdx (schemeVecs schemes) := by
      rw [hpre, ht]
      rfl
    rw [hhead]
    exact hstartmin i (by omega)
  · intro k m hk1 hm1 hm2
    rw [hpre] at hk1 hm2 ⊢
    exact greedyAux_min (schemeVecs schemes) _ _ (by simp) (by simp)
      (fun i hi => by
        simp only [List.mem_cons, List.not_mem_nil, or_false] at hi
        subst hi
        exact hstart)
      k m (by simp) hk1 hm1 hm2

/-- C7 witness: on a concrete two-scheme catalog the traversal's first entry
has minimal slot-0 RGB sum. -/
theorem c7_greedy_witness :
    vec3sum ((schemeVecs [("b", [("base00", "#ffffff")]), ("a", [("base00", "#000000")])]).getD
        ((preOrderIdx [("b", [("base00", "#ffffff")]), ("a", [("base00", "#000000")])]).getD 0 0) [])
      ≤ vec3sum ((schemeVecs [("b", [("base00", "#ffffff")]),
          ("a", [("base00", "#000000")])]).getD 0 []) := by
  have h := c7_greedy_traversal
    [("b", [("base00", "#ffffff")]), ("a", [("base00", "#000000")])] (by decide)
  exact h.2.1 0 (by simp [sortedSchemes, List.length_mergeSort])

end Base16
